import Mathlib

/-!
Shallow embedding of the decay-based frequency estimators of the
forward-decay-reproducibility repository, together with proofs of the
specification claims about them.

Sources embedded:
- src/quix_app/utils/ForwardDecay.py   (class ForwardDecay)
- src/quix_app/utils/BackwardDecay.py  (class BackwardDecay)
- src/quix_app/utils/SlidingWindow.py  (class SlidingWindow)
- relative_error from src/evaluation/run_experiments.py and
  src/quix_app/realtime_evaluator.py (the two definitions are textually
  identical).

Python dicts are embedded as insertion-ordered association lists; Python
float arithmetic is embedded as exact arithmetic (real numbers where the
code calls math.exp, an arbitrary linearly ordered additive group for the
purely order-based SlidingWindow code, instantiated at concrete types in
witnesses).  Mutation is embedded as functional state passing: a method
that mutates returns the new state.
-/

/-- Lookup in an insertion-ordered association list (Python `d[k]` /
`k in d` on a dict whose entries are listed in insertion order). -/
def findVal {K : Type} {α : Type} [DecidableEq K] : List (K × α) → K → Option α
  | [], _ => none
  | (k', v) :: rest, k => if k' = k then some v else findVal rest k

/-- Write a key's value in an insertion-ordered association list
(Python `d[k] = v`): replace the value in place if the key is present,
otherwise append a new entry at the end, as Python dicts do. -/
def setVal {K : Type} {α : Type} [DecidableEq K] : List (K × α) → K → α → List (K × α)
  | [], k, v => [(k, v)]
  | (k', v') :: rest, k, v => if k' = k then (k, v) :: rest else (k', v') :: setVal rest k v

/-- Stable descending insertion by score (second component), modelling
Python's stable `list.sort(key=lambda x: x[1], reverse=True)`: the new
element goes in front of the first strictly-smaller-or-equal score met
from the left, so that of two equal scores the earlier-listed one stays
first. -/
def insertDesc {K : Type} {α : Type} [LinearOrder α] (p : K × α) : List (K × α) → List (K × α)
  | [] => [p]
  | q :: qs => if q.2 ≤ p.2 then p :: q :: qs else q :: insertDesc p qs

/-- Stable descending sort by score, used by every estimator's `top_k`. -/
def sortDesc {K : Type} {α : Type} [LinearOrder α] (l : List (K × α)) : List (K × α) :=
  l.foldr insertDesc []

/-- relative_error from src/evaluation/run_experiments.py lines 42-45 and
src/quix_app/realtime_evaluator.py lines 68-72 (the two bodies are
identical): `0 if est == 0 else 1` when `truth == 0`, otherwise
`abs(est - truth) / truth`. -/
def relative_error (est truth : ℚ) : ℚ :=
  if truth = 0 then (if est = 0 then 0 else 1) else |est - truth| / truth

/-- Modelled from the spec: the reference definition of relative error in
section 4.4 of the specification, used to compare against the
implementation's `relative_error`: 0 if truth = 0 and est = 0; 1 if
truth = 0 and est ≠ 0; otherwise |est − truth| / truth. -/
def relative_error_ref (est truth : ℚ) : ℚ :=
  if truth = 0 ∧ est = 0 then 0
  else if truth = 0 ∧ est ≠ 0 then 1
  else |est - truth| / truth

/-- State of class ForwardDecay (src/quix_app/utils/ForwardDecay.py):
decay rate `lambda_`, optional landmark `t0`, and the defaultdict
`decayed_counts` mapping item -> accumulated weight. -/
structure ForwardDecay (K : Type) where
  lambda_ : ℝ
  t0 : Option ℝ
  decayed_counts : List (K × ℝ)

/-- ForwardDecay.__init__(lambda_, t0): empty accumulator map. -/
def ForwardDecay.init {K : Type} (lambda_ : ℝ) (t0 : Option ℝ) : ForwardDecay K :=
  ⟨lambda_, t0, []⟩

namespace ForwardDecay

variable {K : Type} [DecidableEq K]

/-- ForwardDecay.update: `_ensure_t0(timestamp)` sets the landmark on the
first ever update; then `decayed_counts[item_id] += exp(lambda_ * (timestamp - t0))`
(the defaultdict default is 0.0). -/
noncomputable def update (fd : ForwardDecay K) (item_id : K) (timestamp : ℝ) : ForwardDecay K :=
  let t0 := match fd.t0 with
    | none => timestamp
    | some x => x
  let d := Real.exp (fd.lambda_ * (timestamp - t0))
  { fd with
    t0 := some t0
    decayed_counts := setVal fd.decayed_counts item_id ((findVal fd.decayed_counts item_id).getD 0 + d) }

/-- ForwardDecay.query: 0.0 for an unseen item; 0.0 when no landmark is
set; otherwise the accumulator times `exp(-lambda_ * (current_time - t0))`. -/
noncomputable def query (fd : ForwardDecay K) (item_id : K) (current_time : ℝ) : ℝ :=
  match findVal fd.decayed_counts item_id with
  | none => 0
  | some v =>
    match fd.t0 with
    | none => 0
    | some t0 => v * Real.exp (-fd.lambda_ * (current_time - t0))

/-- ForwardDecay.total_frequency: 0.0 when no landmark is set; otherwise
`sum(v * multiplier for v in decayed_counts.values())` with
`multiplier = exp(lambda_ * (current_time - t0))` (note the sign: the
source multiplies by `exp(+lambda_ * ...)` here, unlike `query`). -/
noncomputable def total_frequency (fd : ForwardDecay K) (current_time : ℝ) : ℝ :=
  match fd.t0 with
  | none => 0
  | some t0 =>
    let multiplier := Real.exp (fd.lambda_ * (current_time - t0))
    (fd.decayed_counts.map (fun p => p.2 * multiplier)).sum

/-- ForwardDecay.top_k: empty when no landmark is set; otherwise score
every accumulator by `value * exp(lambda_ * (current_time - t0))` (same
positive-sign multiplier as total_frequency), sort stably descending by
score, and take the first k. -/
noncomputable def top_k (fd : ForwardDecay K) (k : ℕ) (current_time : ℝ) : List (K × ℝ) :=
  match fd.t0 with
  | none => []
  | some t0 =>
    let multiplier := Real.exp (fd.lambda_ * (current_time - t0))
    let scored := fd.decayed_counts.map (fun p => (p.1, p.2 * multiplier))
    (sortDesc scored).take k

end ForwardDecay

/-- State of class BackwardDecay (src/quix_app/utils/BackwardDecay.py):
decay rate `lambda_` and the defaultdict `timestamps` mapping
item -> list of raw timestamps. -/
structure BackwardDecay (K : Type) where
  lambda_ : ℝ
  timestamps : List (K × List ℝ)

/-- BackwardDecay.__init__(lambda_): empty timestamp map. -/
def BackwardDecay.init {K : Type} (lambda_ : ℝ) : BackwardDecay K :=
  ⟨lambda_, []⟩

namespace BackwardDecay

variable {K : Type} [DecidableEq K]

/-- BackwardDecay.update: `timestamps[item_id].append(timestamp)` (the
defaultdict default is the empty list). -/
noncomputable def update (bd : BackwardDecay K) (item_id : K) (timestamp : ℝ) : BackwardDecay K :=
  { bd with
    timestamps := setVal bd.timestamps item_id (((findVal bd.timestamps item_id).getD []) ++ [timestamp]) }

/-- BackwardDecay.query: 0.0 for an unseen item; otherwise
`sum of exp(-lambda_ * (current_time - ts))` over the item's stored
timestamps. -/
noncomputable def query (bd : BackwardDecay K) (item_id : K) (current_time : ℝ) : ℝ :=
  match findVal bd.timestamps item_id with
  | none => 0
  | some ts_list => (ts_list.map (fun ts => Real.exp (-bd.lambda_ * (current_time - ts)))).sum

/-- BackwardDecay.total_frequency: the same decayed sum taken over every
stored timestamp of every item. -/
noncomputable def total_frequency (bd : BackwardDecay K) (current_time : ℝ) : ℝ :=
  (bd.timestamps.map (fun p => (p.2.map (fun ts => Real.exp (-bd.lambda_ * (current_time - ts)))).sum)).sum

/-- BackwardDecay.top_k: score every item by the same decayed sum, sort
stably descending, take the first k. -/
noncomputable def top_k (bd : BackwardDecay K) (k : ℕ) (current_time : ℝ) : List (K × ℝ) :=
  let scores := bd.timestamps.map
    (fun p => (p.1, (p.2.map (fun ts => Real.exp (-bd.lambda_ * (current_time - ts)))).sum))
  (sortDesc scores).take k

end BackwardDecay

/-- The loop of Python's `bisect.bisect_left(a, x)` (CPython bisect
module): narrow `[lo, hi)` by binary search until `lo = hi`, moving `lo`
past positions whose element is `< x`.  The interval `[lo, hi)` shrinks
strictly on every iteration, so the loop runs at most `hi - lo` times;
the `fuel` argument carries that bound as a structural termination
measure and is never exhausted when `fuel ≥ hi - lo`.  Out-of-range
reads cannot occur when `hi ≤ a.length`; the `getD` default is
arbitrary. -/
def bisectLeftAux {α : Type} [LinearOrder α] (a : List α) (x : α) : ℕ → ℕ → ℕ → ℕ
  | lo, hi, fuel + 1 =>
    if lo < hi then
      let mid := (lo + hi) / 2
      if a.getD mid x < x then bisectLeftAux a x (mid + 1) hi fuel
      else bisectLeftAux a x lo mid fuel
    else lo
  | lo, _, 0 => lo

/-- Python `bisect.bisect_left(a, x)`: the leftmost insertion point for
`x` in `a`. -/
def bisect_left {α : Type} [LinearOrder α] (a : List α) (x : α) : ℕ :=
  bisectLeftAux a x 0 a.length a.length

/-- The loop of Python's `bisect.bisect_right(a, x)`: like bisect_left
but moves `lo` past positions whose element is `≤ x`. -/
def bisectRightAux {α : Type} [LinearOrder α] (a : List α) (x : α) : ℕ → ℕ → ℕ → ℕ
  | lo, hi, fuel + 1 =>
    if lo < hi then
      let mid := (lo + hi) / 2
      if x < a.getD mid x then bisectRightAux a x lo mid fuel
      else bisectRightAux a x (mid + 1) hi fuel
    else lo
  | lo, _, 0 => lo

/-- Python `bisect.bisect_right(a, x)`: the rightmost insertion point for
`x` in `a`. -/
def bisect_right {α : Type} [LinearOrder α] (a : List α) (x : α) : ℕ :=
  bisectRightAux a x 0 a.length a.length

/-- Python `bisect.insort(a, x)`: insert `x` into `a` at index
`bisect_right(a, x)`. -/
def insort {α : Type} [LinearOrder α] (a : List α) (x : α) : List α :=
  a.insertIdx (bisect_right a x) x

/-- State of class SlidingWindow (src/quix_app/utils/SlidingWindow.py):
window duration `window_size` and the defaultdict `timestamps` mapping
item -> list of timestamps.  Timestamps live in an arbitrary linearly
ordered additive commutative group (the code only compares and
subtracts them). -/
structure SlidingWindow (K : Type) (α : Type) where
  window_size : α
  timestamps : List (K × List α)

/-- SlidingWindow.__init__(window_size): empty timestamp map. -/
def SlidingWindow.init {K : Type} {α : Type} (window_size : α) : SlidingWindow K α :=
  ⟨window_size, []⟩

namespace SlidingWindow

variable {K : Type} {α : Type} [DecidableEq K] [LinearOrderedAddCommGroup α]

/-- SlidingWindow._cleanup: `window_start = current_time - window_size`;
`idx = bisect_left(ts_list, window_start)`; keep `ts_list[idx:]`.  Note
the defaultdict read `self.timestamps[item_id]` creates an empty entry
for an absent item. -/
def _cleanup (sw : SlidingWindow K α) (item_id : K) (current_time : α) : SlidingWindow K α :=
  let window_start := current_time - sw.window_size
  let ts_list := (findVal sw.timestamps item_id).getD []
  let idx := bisect_left ts_list window_start
  { sw with timestamps := setVal sw.timestamps item_id (ts_list.drop idx) }

/-- SlidingWindow.update: `bisect.insort(self.timestamps[item_id], timestamp)`
(defaultdict default `[]`), then `self._cleanup(item_id, timestamp)`. -/
def update (sw : SlidingWindow K α) (item_id : K) (timestamp : α) : SlidingWindow K α :=
  let sw' := { sw with
    timestamps := setVal sw.timestamps item_id (insort ((findVal sw.timestamps item_id).getD []) timestamp) }
  sw'._cleanup item_id timestamp

/-- SlidingWindow.query: 0 for an unseen item (checked before any
cleanup); otherwise cleanup this item and return the remaining count.
The mutated state is returned alongside the count. -/
def query (sw : SlidingWindow K α) (item_id : K) (current_time : α) : SlidingWindow K α × ℕ :=
  match findVal sw.timestamps item_id with
  | none => (sw, 0)
  | some _ =>
    let sw' := sw._cleanup item_id current_time
    (sw', ((findVal sw'.timestamps item_id).getD []).length)

/-- SlidingWindow.total_frequency: iterate over the current keys in
order, cleaning each item up and accumulating the remaining counts. -/
def total_frequency (sw : SlidingWindow K α) (current_time : α) : SlidingWindow K α × ℕ :=
  (sw.timestamps.map Prod.fst).foldl
    (fun acc item_id =>
      let sw' := acc.1._cleanup item_id current_time
      (sw', acc.2 + ((findVal sw'.timestamps item_id).getD []).length))
    (sw, 0)

/-- SlidingWindow.top_k: clean every tracked item up, score it by its
remaining count, sort stably descending, take the first k. -/
def top_k (sw : SlidingWindow K α) (k : ℕ) (current_time : α) : SlidingWindow K α × List (K × ℕ) :=
  let res := (sw.timestamps.map Prod.fst).foldl
    (fun acc item_id =>
      let sw' := acc.1._cleanup item_id current_time
      (sw', acc.2 ++ [(item_id, ((findVal sw'.timestamps item_id).getD []).length)]))
    (sw, [])
  (res.1, (sortDesc res.2).take k)

end SlidingWindow

/-- A call against a ForwardDecay instance (the four public methods). -/
inductive FDOp (K : Type) where
  | update (item_id : K) (timestamp : ℝ)
  | query (item_id : K) (current_time : ℝ)
  | total_frequency (current_time : ℝ)
  | top_k (k : ℕ) (current_time : ℝ)

/-- Effect of one ForwardDecay call on the instance state: `update`
mutates; `query`, `total_frequency` and `top_k` only read
(`decayed_counts` is never written by them in the source, and their
defaultdict reads are guarded or iterate existing entries only). -/
noncomputable def applyFDOp {K : Type} [DecidableEq K] (fd : ForwardDecay K) : FDOp K → ForwardDecay K
  | .update i t => fd.update i t
  | .query _ _ => fd
  | .total_frequency _ => fd
  | .top_k _ _ => fd

/-- State of a ForwardDecay instance after a sequence of calls. -/
noncomputable def applyFDOps {K : Type} [DecidableEq K] (fd : ForwardDecay K) (ops : List (FDOp K)) : ForwardDecay K :=
  ops.foldl applyFDOp fd

/-- A call against a BackwardDecay instance. -/
inductive BDOp (K : Type) where
  | update (item_id : K) (timestamp : ℝ)
  | query (item_id : K) (current_time : ℝ)
  | total_frequency (current_time : ℝ)
  | top_k (k : ℕ) (current_time : ℝ)

/-- Effect of one BackwardDecay call on the instance state: only
`update` mutates (`query` checks membership before reading;
`total_frequency` and `top_k` iterate existing entries only). -/
noncomputable def applyBDOp {K : Type} [DecidableEq K] (bd : BackwardDecay K) : BDOp K → BackwardDecay K
  | .update i t => bd.update i t
  | .query _ _ => bd
  | .total_frequency _ => bd
  | .top_k _ _ => bd

/-- State of a BackwardDecay instance after a sequence of calls. -/
noncomputable def applyBDOps {K : Type} [DecidableEq K] (bd : BackwardDecay K) (ops : List (BDOp K)) : BackwardDecay K :=
  ops.foldl applyBDOp bd

/-- A call against a SlidingWindow instance. -/
inductive SWOp (K : Type) (α : Type) where
  | update (item_id : K) (timestamp : α)
  | query (item_id : K) (current_time : α)
  | total_frequency (current_time : α)
  | top_k (k : ℕ) (current_time : α)

/-- Effect of one SlidingWindow call on the instance state: every method
may mutate (query, total_frequency and top_k trigger lazy cleanup). -/
def applySWOp {K : Type} {α : Type} [DecidableEq K] [LinearOrderedAddCommGroup α]
    (sw : SlidingWindow K α) : SWOp K α → SlidingWindow K α
  | .update i t => sw.update i t
  | .query i t => (sw.query i t).1
  | .total_frequency t => (sw.total_frequency t).1
  | .top_k k t => (sw.top_k k t).1

/-- State of a SlidingWindow instance after a sequence of calls. -/
def applySWOps {K : Type} {α : Type} [DecidableEq K] [LinearOrderedAddCommGroup α]
    (sw : SlidingWindow K α) (ops : List (SWOp K α)) : SlidingWindow K α :=
  ops.foldl applySWOp sw

/-- State of a SlidingWindow instance after a sequence of bare
`update(item_id, timestamp)` calls, given as (item, timestamp) pairs. -/
def applySWUpdates {K : Type} {α : Type} [DecidableEq K] [LinearOrderedAddCommGroup α]
    (sw : SlidingWindow K α) (ops : List (K × α)) : SlidingWindow K α :=
  ops.foldl (fun s p => s.update p.1 p.2) sw

section AssocListLemmas

variable {K : Type} {α : Type} [DecidableEq K]

theorem findVal_setVal_self (l : List (K × α)) (k : K) (v : α) :
    findVal (setVal l k v) k = some v := by
  induction l with
  | nil => simp [setVal, findVal]
  | cons p rest ih =>
    by_cases h : p.1 = k
    · simp [setVal, findVal, h]
    · simp [setVal, findVal, h, ih]

theorem findVal_setVal_ne (l : List (K × α)) (k k' : K) (v : α) (h : k' ≠ k) :
    findVal (setVal l k' v) k = findVal l k := by
  induction l with
  | nil => simp [setVal, findVal, h]
  | cons p rest ih =>
    by_cases hp : p.1 = k'
    · simp [setVal, findVal, hp, h]
    · by_cases hk : p.1 = k
      · simp [setVal, findVal, hp, hk, Ne.symm h]
      · simp [setVal, findVal, hp, hk, ih]

end AssocListLemmas

/-- C5: the harness's relative_error equals the reference definition for
all inputs (0 when truth = 0 and est = 0; 1 when truth = 0 and est ≠ 0;
|est − truth| / truth otherwise), relative_error(x, x) = 0 for x > 0,
relative_error(0, 0) = 0, relative_error(5, 0) = 1, and no input reaches
a division by zero (the division branch is guarded by truth ≠ 0). -/
theorem relative_error_matches_ref :
    (∀ est truth : ℚ, relative_error est truth = relative_error_ref est truth)
    ∧ (∀ x : ℚ, 0 < x → relative_error x x = 0)
    ∧ relative_error 0 0 = 0 ∧ relative_error 5 0 = 1 := by
  refine ⟨?_, ?_, ?_, ?_⟩
  · intro est truth
    by_cases ht : truth = 0
    · by_cases he : est = 0 <;> simp [relative_error, relative_error_ref, ht, he]
    · simp [relative_error, relative_error_ref, ht]
  · intro x hx
    simp [relative_error, ne_of_gt hx]
  · simp [relative_error]
  · norm_num [relative_error]

/-- Witness for C5 at est = truth = 2. -/
theorem relative_error_matches_ref_witness : (0:ℚ) < 2 ∧ relative_error 2 2 = 0 :=
  ⟨by norm_num, relative_error_matches_ref.2.1 2 (by norm_num)⟩

theorem applyFDOp_t0_some {K : Type} [DecidableEq K] (fd : ForwardDecay K) (op : FDOp K)
    (L : ℝ) (h : fd.t0 = some L) : (applyFDOp fd op).t0 = some L := by
  cases op with
  | update i t => simp [applyFDOp, ForwardDecay.update, h]
  | query i t => simpa [applyFDOp] using h
  | total_frequency t => simpa [applyFDOp] using h
  | top_k k t => simpa [applyFDOp] using h

theorem applyFDOps_t0_some {K : Type} [DecidableEq K] (ops : List (FDOp K))
    (fd : ForwardDecay K) (L : ℝ) (h : fd.t0 = some L) :
    (applyFDOps fd ops).t0 = some L := by
  induction ops generalizing fd with
  | nil => simpa [applyFDOps]
  | cons op rest ih =>
    have : applyFDOps fd (op :: rest) = applyFDOps (applyFDOp fd op) rest := rfl
    rw [this]
    exact ih _ (applyFDOp_t0_some fd op L h)

/-- C6: on a ForwardDecay instance constructed without a landmark, the
first `update(key, t_first)` fixes the landmark `t0` to `t_first`, and no
subsequent call (update, query, total_frequency or top_k) ever changes
it: after the initial update followed by any sequence of operations,
`t0 = some t_first`. -/
theorem ForwardDecay.t0_set_once_immutable {K : Type} [DecidableEq K]
    (lam : ℝ) (key : K) (t_first : ℝ) (ops : List (FDOp K)) :
    (applyFDOps (ForwardDecay.init lam none) (FDOp.update key t_first :: ops)).t0 = some t_first := by
  have h1 : (applyFDOp (ForwardDecay.init (K := K) lam none) (FDOp.update key t_first)).t0 = some t_first := by
    simp [applyFDOp, ForwardDecay.update, ForwardDecay.init]
  have : applyFDOps (ForwardDecay.init (K := K) lam none) (FDOp.update key t_first :: ops)
      = applyFDOps (applyFDOp (ForwardDecay.init lam none) (FDOp.update key t_first)) ops := rfl
  rw [this]
  exact applyFDOps_t0_some ops _ t_first h1

/-- Total number of timestamps stored by a BackwardDecay instance,
summed over all items. -/
def BackwardDecay.size {K : Type} (bd : BackwardDecay K) : ℕ :=
  (bd.timestamps.map (fun p => p.2.length)).sum

/-- Whether a BackwardDecay call is an update. -/
def BDOp.isUpdate {K : Type} : BDOp K → Bool
  | .update _ _ => true
  | _ => false

theorem BackwardDecay.size_update {K : Type} [DecidableEq K]
    (bd : BackwardDecay K) (i : K) (t : ℝ) : (bd.update i t).size = bd.size + 1 := by
  suffices h : ∀ l : List (K × List ℝ),
      ((setVal l i (((findVal l i).getD []) ++ [t])).map (fun p => p.2.length)).sum
        = (l.map (fun p => p.2.length)).sum + 1 by
    simpa [BackwardDecay.size, BackwardDecay.update] using h bd.timestamps
  intro l
  induction l with
  | nil => simp [setVal, findVal]
  | cons p rest ih =>
    by_cases hp : p.1 = i
    · simp [setVal, findVal, hp]
      omega
    · simp [setVal, findVal, hp, ih]
      omega

/-- C7: a BackwardDecay instance never prunes: after any interleaved
sequence of calls containing exactly n updates, the total number of
stored timestamps across all items is exactly n (each update appends one
entry; query, total_frequency and top_k leave the stored state
unchanged). -/
theorem BackwardDecay.size_eq_update_count {K : Type} [DecidableEq K]
    (lam : ℝ) (ops : List (BDOp K)) :
    (applyBDOps (BackwardDecay.init lam) ops).size = (ops.filter BDOp.isUpdate).length := by
  suffices h : ∀ (ops : List (BDOp K)) (bd : BackwardDecay K),
      (applyBDOps bd ops).size = bd.size + (ops.filter BDOp.isUpdate).length by
    simpa [BackwardDecay.init, BackwardDecay.size] using h ops (BackwardDecay.init lam)
  intro ops
  induction ops with
  | nil => simp [applyBDOps]
  | cons op rest ih =>
    intro bd
    have hstep : applyBDOps bd (op :: rest) = applyBDOps (applyBDOp bd op) rest := rfl
    rw [hstep, ih]
    cases op with
    | update i t => simp [applyBDOp, BackwardDecay.size_update, BDOp.isUpdate]; omega
    | query i t => simp [applyBDOp, BDOp.isUpdate]
    | total_frequency t => simp [applyBDOp, BDOp.isUpdate]
    | top_k k t => simp [applyBDOp, BDOp.isUpdate]

/-- C8: with a positive decay rate and a fixed stored state,
BackwardDecay.query is non-increasing in the query time: for t1 ≤ t2,
query(key, t2) ≤ query(key, t1). -/
theorem BackwardDecay.query_antitone {K : Type} [DecidableEq K]
    (bd : BackwardDecay K) (key : K) (t1 t2 : ℝ)
    (hl : 0 < bd.lambda_) (h : t1 ≤ t2) :
    bd.query key t2 ≤ bd.query key t1 := by
  unfold BackwardDecay.query
  cases hfind : findVal bd.timestamps key with
  | none => exact le_refl 0
  | some ts_list =>
    apply List.sum_le_sum
    intro ts _
    apply Real.exp_le_exp.mpr
    nlinarith

/-- Witness for C8: a concrete instance holding one timestamp, with
lambda_ = 1 and query times 1 ≤ 2. -/
theorem BackwardDecay.query_antitone_witness :
    (0:ℝ) < 1 ∧ (1:ℝ) ≤ 2
    ∧ (⟨1, [(0, [0])]⟩ : BackwardDecay ℕ).query 0 2 ≤ (⟨1, [(0, [0])]⟩ : BackwardDecay ℕ).query 0 1 :=
  ⟨by norm_num, by norm_num,
    BackwardDecay.query_antitone (⟨1, [(0, [0])]⟩ : BackwardDecay ℕ) 0 1 2
      (by norm_num) (by norm_num)⟩

/-- C1 (code bug): the derived reads do not use query's decay
multiplier.  On the reachable state obtained by `update(0, 0)` with
lambda_ = 1 and landmark t0 = 0, at query time 1 the source's
`total_frequency` and `top_k` multiply the accumulator (= 1) by
`exp(+lambda_*(t_q - t0)) = e`, while `query` multiplies it by
`exp(-lambda_*(t_q - t0)) = 1/e`: the top_k score and the total differ
from the query value, refuting score = query(item, t_q) and
total_frequency(t_q) = sum of query over stored keys. -/
theorem ForwardDecay.derived_reads_disagree_with_query :
    ((ForwardDecay.init 1 none).update (0:ℕ) 0).total_frequency 1 = Real.exp 1
    ∧ ((ForwardDecay.init 1 none).update (0:ℕ) 0).query 0 1 = Real.exp (-1)
    ∧ ((ForwardDecay.init 1 none).update (0:ℕ) 0).top_k 1 1 = [(0, Real.exp 1)]
    ∧ Real.exp 1 ≠ Real.exp (-1) := by
  have hval : ((ForwardDecay.init 1 none).update (0:ℕ) 0)
      = ⟨1, some 0, [(0, 0 + Real.exp (1 * (0 - 0)))]⟩ := by
    simp [ForwardDecay.update, ForwardDecay.init, setVal, findVal]
  refine ⟨?_, ?_, ?_, ?_⟩
  · rw [hval]
    simp [ForwardDecay.total_frequency]
  · rw [hval]
    simp [ForwardDecay.query, findVal]
  · rw [hval]
    simp [ForwardDecay.top_k, sortDesc, insertDesc, findVal]
  · intro h
    have h2 := Real.exp_injective h
    norm_num at h2

/-- The timestamps of the updates issued for a given key, in issue
order. -/
def tsFor {K : Type} {α : Type} [DecidableEq K] (key : K) (ops : List (K × α)) : List α :=
  (ops.filter (fun p => decide (p.1 = key))).map (fun p => p.2)

/-- State of a ForwardDecay instance constructed with decay rate `lam`
and no landmark after a sequence of `update(item, timestamp)` calls. -/
noncomputable def applyFDUpdates {K : Type} [DecidableEq K] (lam : ℝ) (ops : List (K × ℝ)) : ForwardDecay K :=
  ops.foldl (fun s p => s.update p.1 p.2) (ForwardDecay.init lam none)

/-- State of a BackwardDecay instance constructed with decay rate `lam`
after a sequence of `update(item, timestamp)` calls. -/
noncomputable def applyBDUpdates {K : Type} [DecidableEq K] (lam : ℝ) (ops : List (K × ℝ)) : BackwardDecay K :=
  ops.foldl (fun s p => s.update p.1 p.2) (BackwardDecay.init lam)

theorem foldFDupd_lambda {K : Type} [DecidableEq K] (ops : List (K × ℝ)) (fd : ForwardDecay K) :
    (ops.foldl (fun s p => s.update p.1 p.2) fd).lambda_ = fd.lambda_ := by
  induction ops generalizing fd with
  | nil => rfl
  | cons p rest ih => exact (ih (fd.update p.1 p.2)).trans rfl

theorem foldFDupd_t0 {K : Type} [DecidableEq K] (ops : List (K × ℝ)) (fd : ForwardDecay K)
    (L : ℝ) (h : fd.t0 = some L) :
    (ops.foldl (fun s p => s.update p.1 p.2) fd).t0 = some L := by
  induction ops generalizing fd with
  | nil => exact h
  | cons p rest ih =>
    exact ih (fd.update p.1 p.2) (by simp [ForwardDecay.update, h])

theorem foldBDupd_lambda {K : Type} [DecidableEq K] (ops : List (K × ℝ)) (bd : BackwardDecay K) :
    (ops.foldl (fun s p => s.update p.1 p.2) bd).lambda_ = bd.lambda_ := by
  induction ops generalizing bd with
  | nil => rfl
  | cons p rest ih => exact (ih (bd.update p.1 p.2)).trans rfl

theorem foldBD_findVal {K : Type} [DecidableEq K] (ops : List (K × ℝ)) (bd : BackwardDecay K) (key : K) :
    findVal (ops.foldl (fun s p => s.update p.1 p.2) bd).timestamps key
      = if findVal bd.timestamps key = none ∧ tsFor key ops = []
        then none
        else some ((findVal bd.timestamps key).getD [] ++ tsFor key ops) := by
  induction ops generalizing bd with
  | nil =>
    cases h : findVal bd.timestamps key with
    | none => simp [tsFor, h]
    | some l => simp [tsFor, h]
  | cons p rest ih =>
    obtain ⟨pk, pt⟩ := p
    have hstep : ((pk, pt) :: rest).foldl (fun s q => s.update q.1 q.2) bd
        = rest.foldl (fun s q => s.update q.1 q.2) (bd.update pk pt) := rfl
    rw [hstep, ih]
    by_cases hk : pk = key
    · subst hk
      have hfind : findVal (bd.update pk pt).timestamps pk
          = some ((findVal bd.timestamps pk).getD [] ++ [pt]) := by
        simp [BackwardDecay.update, findVal_setVal_self]
      have htf : tsFor pk ((pk, pt) :: rest) = pt :: tsFor pk rest := by
        simp [tsFor, List.filter_cons]
      rw [hfind, htf]
      cases h : findVal bd.timestamps pk with
      | none => simp [h]
      | some l => simp [h]
    · have hfind : findVal (bd.update pk pt).timestamps key = findVal bd.timestamps key := by
        simp [BackwardDecay.update, findVal_setVal_ne _ _ _ _ hk]
      have htf : tsFor key ((pk, pt) :: rest) = tsFor key rest := by
        simp [tsFor, List.filter_cons, hk]
      rw [hfind, htf]

theorem foldFD_findVal {K : Type} [DecidableEq K] (ops : List (K × ℝ)) (fd : ForwardDecay K)
    (key : K) (L : ℝ) (ht : fd.t0 = some L) :
    findVal (ops.foldl (fun s p => s.update p.1 p.2) fd).decayed_counts key
      = if findVal fd.decayed_counts key = none ∧ tsFor key ops = []
        then none
        else some ((findVal fd.decayed_counts key).getD 0
            + ((tsFor key ops).map (fun t => Real.exp (fd.lambda_ * (t - L)))).sum) := by
  induction ops generalizing fd with
  | nil =>
    cases h : findVal fd.decayed_counts key with
    | none => simp [tsFor, h]
    | some v => simp [tsFor, h]
  | cons p rest ih =>
    obtain ⟨pk, pt⟩ := p
    have hstep : ((pk, pt) :: rest).foldl (fun s q => s.update q.1 q.2) fd
        = rest.foldl (fun s q => s.update q.1 q.2) (fd.update pk pt) := rfl
    have ht' : (fd.update pk pt).t0 = some L := by simp [ForwardDecay.update, ht]
    rw [hstep, ih (fd.update pk pt) ht']
    have hlam : (fd.update pk pt).lambda_ = fd.lambda_ := rfl
    by_cases hk : pk = key
    · subst hk
      have hfind : findVal (fd.update pk pt).decayed_counts pk
          = some ((findVal fd.decayed_counts pk).getD 0 + Real.exp (fd.lambda_ * (pt - L))) := by
        simp [ForwardDecay.update, findVal_setVal_self, ht]
      have htf : tsFor pk ((pk, pt) :: rest) = pt :: tsFor pk rest := by
        simp [tsFor, List.filter_cons]
      rw [hfind, hlam, htf]
      cases h : findVal fd.decayed_counts pk with
      | none => simp [h, add_assoc]
      | some v => simp [h, add_assoc]
    · have hfind : findVal (fd.update pk pt).decayed_counts key = findVal fd.decayed_counts key := by
        simp [ForwardDecay.update, findVal_setVal_ne _ _ _ _ hk]
      have htf : tsFor key ((pk, pt) :: rest) = tsFor key rest := by
        simp [tsFor, List.filter_cons, hk]
      rw [hfind, hlam, htf]

theorem ForwardDecay.query_eq {K : Type} [DecidableEq K] (fd : ForwardDecay K) (k : K) (tq v L : ℝ)
    (hf : findVal fd.decayed_counts k = some v) (ht : fd.t0 = some L) :
    fd.query k tq = v * Real.exp (-fd.lambda_ * (tq - L)) := by
  simp [ForwardDecay.query, hf, ht]

theorem ForwardDecay.query_eq_none {K : Type} [DecidableEq K] (fd : ForwardDecay K) (k : K) (tq : ℝ)
    (hf : findVal fd.decayed_counts k = none) : fd.query k tq = 0 := by
  simp [ForwardDecay.query, hf]

theorem sum_exp_mul (l : List ℝ) (lam t1 t_q : ℝ) :
    (l.map (fun t => Real.exp (lam * (t - t1)))).sum * Real.exp (-lam * (t_q - t1))
      = (l.map (fun t => Real.exp (-lam * (t_q - t)))).sum := by
  induction l with
  | nil => simp
  | cons a tl ih =>
    simp only [List.map_cons, List.sum_cons, add_mul, ih]
    congr 1
    rw [← Real.exp_add]
    congr 1
    ring

/-- C2: over exact real arithmetic, ForwardDecay and BackwardDecay are
observationally equivalent on point queries: after any sequence of
update(key, t) calls applied to fresh instances with the same decay rate
lam, every query(key, t_q) equals the sum of exp(-lam * (t_q - t_i))
over that key's update timestamps t_i, for both estimators. -/
theorem forward_backward_query_equivalent {K : Type} [DecidableEq K]
    (lam : ℝ) (ops : List (K × ℝ)) (key : K) (t_q : ℝ) :
    (applyFDUpdates lam ops).query key t_q
      = ((tsFor key ops).map (fun t => Real.exp (-lam * (t_q - t)))).sum
    ∧ (applyBDUpdates lam ops).query key t_q
      = ((tsFor key ops).map (fun t => Real.exp (-lam * (t_q - t)))).sum := by
  constructor
  · cases ops with
    | nil => simp [applyFDUpdates, ForwardDecay.query, ForwardDecay.init, findVal, tsFor]
    | cons p rest =>
      obtain ⟨pk, pt⟩ := p
      set f1 := (ForwardDecay.init (K := K) lam none).update pk pt with hf1def
      have hstep : applyFDUpdates (K := K) lam ((pk, pt) :: rest)
          = rest.foldl (fun s q => s.update q.1 q.2) f1 := rfl
      have hf1t0 : f1.t0 = some pt := by
        simp [hf1def, ForwardDecay.update, ForwardDecay.init]
      have hf1lam : f1.lambda_ = lam := rfl
      have ht0 : (rest.foldl (fun s q => s.update q.1 q.2) f1).t0 = some pt :=
        foldFDupd_t0 rest f1 pt hf1t0
      have hlam : (rest.foldl (fun s q => s.update q.1 q.2) f1).lambda_ = lam :=
        (foldFDupd_lambda rest f1).trans hf1lam
      have hfind := foldFD_findVal rest f1 key pt hf1t0
      simp only [hf1lam] at hfind
      by_cases hk : pk = key
      · subst hk
        have hold : findVal f1.decayed_counts pk = some (0 + Real.exp (lam * (pt - pt))) := by
          simp [hf1def, ForwardDecay.update, ForwardDecay.init, setVal, findVal]
        rw [hold] at hfind
        simp only [reduceCtorEq, false_and, if_false, Option.getD_some] at hfind
        rw [hstep, ForwardDecay.query_eq _ pk t_q _ pt hfind ht0, hlam]
        have htf : tsFor pk ((pk, pt) :: rest) = pt :: tsFor pk rest := by
          simp [tsFor, List.filter_cons]
        rw [htf]
        have hs := sum_exp_mul (pt :: tsFor pk rest) lam pt t_q
        simp only [List.map_cons, List.sum_cons] at hs
        rw [zero_add]
        exact hs
      · have hold : findVal f1.decayed_counts key = none := by
          simp [hf1def, ForwardDecay.update, ForwardDecay.init, setVal, findVal, hk]
        rw [hold] at hfind
        have htf : tsFor key ((pk, pt) :: rest) = tsFor key rest := by
          simp [tsFor, List.filter_cons, hk]
        rw [hstep, htf]
        by_cases hrest : tsFor key rest = []
        · rw [ForwardDecay.query_eq_none _ key t_q (by rw [hfind]; simp [hrest])]
          simp [hrest]
        · simp only [hrest, and_false, if_false, Option.getD_none, zero_add] at hfind
          rw [ForwardDecay.query_eq _ key t_q _ pt hfind ht0, hlam]
          exact sum_exp_mul (tsFor key rest) lam pt t_q
  · have hfind := foldBD_findVal ops (BackwardDecay.init (K := K) lam) key
    have hinit : findVal (BackwardDecay.init (K := K) lam).timestamps key = none := rfl
    rw [hinit] at hfind
    have hlam : (applyBDUpdates (K := K) lam ops).lambda_ = lam :=
      foldBDupd_lambda ops (BackwardDecay.init lam)
    by_cases hts : tsFor key ops = []
    · have : findVal (applyBDUpdates (K := K) lam ops).timestamps key = none := by
        rw [show applyBDUpdates (K := K) lam ops
            = ops.foldl (fun s p => s.update p.1 p.2) (BackwardDecay.init lam) from rfl, hfind]
        simp [hts]
      rw [BackwardDecay.query, this, hts]
      simp
    · have : findVal (applyBDUpdates (K := K) lam ops).timestamps key = some (tsFor key ops) := by
        rw [show applyBDUpdates (K := K) lam ops
            = ops.foldl (fun s p => s.update p.1 p.2) (BackwardDecay.init lam) from rfl, hfind]
        simp [hts]
      rw [BackwardDecay.query, this, hlam]

section BisectLemmas

variable {β : Type} [LinearOrder β]

omit [LinearOrder β] in
theorem countP_boundary (p : β → Bool) :
    ∀ (l : List β) (n : ℕ), n ≤ l.length →
      (∀ i (h : i < l.length), i < n → p (l.get ⟨i, h⟩)) →
      (∀ i (h : i < l.length), n ≤ i → ¬ p (l.get ⟨i, h⟩)) →
      l.countP p = n
  | [], n, hn, _, _ => by
    simp only [List.length_nil, Nat.le_zero] at hn
    simp [hn]
  | a :: tl, 0, _, _, h2 => by
    have hall : ∀ x ∈ a :: tl, ¬ p x := by
      intro x hx
      obtain ⟨⟨i, hi⟩, rfl⟩ := List.mem_iff_get.mp hx
      exact h2 i hi (Nat.zero_le i)
    simpa using List.countP_eq_zero.mpr hall
  | a :: tl, n + 1, hn, h1, h2 => by
    have hpa : p a := h1 0 (by simp) (Nat.succ_pos n)
    have ih := countP_boundary p tl n (by simpa using hn)
      (fun i h hi => h1 (i + 1) (by simpa using Nat.succ_lt_succ h) (Nat.succ_lt_succ hi))
      (fun i h hi => h2 (i + 1) (by simpa using Nat.succ_lt_succ h) (Nat.succ_le_succ hi))
    simp [List.countP_cons, hpa, ih]

theorem bisectLeftAux_eq_countP (a : List β) (x : β) (hs : a.Sorted (· ≤ ·)) :
    ∀ (fuel lo hi : ℕ), lo ≤ hi → hi ≤ a.length → hi - lo ≤ fuel →
    (∀ i (h : i < a.length), i < lo → a.get ⟨i, h⟩ < x) →
    (∀ i (h : i < a.length), hi ≤ i → ¬ a.get ⟨i, h⟩ < x) →
    bisectLeftAux a x lo hi fuel = a.countP (fun t => decide (t < x)) := by
  intro fuel
  induction fuel with
  | zero =>
    intro lo hi hlo hhi hfuel h1 h2
    have heq : lo = hi := by omega
    subst heq
    show lo = _
    exact (countP_boundary (fun t => decide (t < x)) a lo (by omega)
      (fun i hi hlt => by simpa using h1 i hi hlt)
      (fun i hi hge => by simpa using h2 i hi hge)).symm
  | succ fuel ih =>
    intro lo hi hlo hhi hfuel h1 h2
    by_cases h : lo < hi
    · rw [show bisectLeftAux a x lo hi (fuel + 1)
          = if a.getD ((lo + hi) / 2) x < x then bisectLeftAux a x ((lo + hi) / 2 + 1) hi fuel
            else bisectLeftAux a x lo ((lo + hi) / 2) fuel by
        rw [bisectLeftAux]
        rw [if_pos h]]
      have hmid : (lo + hi) / 2 < a.length := by omega
      have hgd : a.getD ((lo + hi) / 2) x = a.get ⟨(lo + hi) / 2, hmid⟩ := by
        rw [List.get_eq_getElem]
        exact List.getD_eq_getElem a x hmid
      rw [hgd]
      by_cases hcond : a.get ⟨(lo + hi) / 2, hmid⟩ < x
      · rw [if_pos hcond]
        refine ih ((lo + hi) / 2 + 1) hi (by omega) hhi (by omega) ?_ h2
        intro i hilen hilt
        have hle : a.get ⟨i, hilen⟩ ≤ a.get ⟨(lo + hi) / 2, hmid⟩ :=
          hs.rel_get_of_le (by simpa using Nat.lt_succ_iff.mp hilt)
        exact lt_of_le_of_lt hle hcond
      · rw [if_neg hcond]
        refine ih lo ((lo + hi) / 2) (by omega) (by omega) (by omega) h1 ?_
        intro i hilen hige
        have hle : a.get ⟨(lo + hi) / 2, hmid⟩ ≤ a.get ⟨i, hilen⟩ :=
          hs.rel_get_of_le (by simpa using hige)
        exact fun hlt => hcond (lt_of_le_of_lt hle hlt)
    · rw [show bisectLeftAux a x lo hi (fuel + 1) = lo by
        rw [bisectLeftAux]
        rw [if_neg h]]
      have heq : lo = hi := by omega
      exact (countP_boundary (fun t => decide (t < x)) a lo (by omega)
        (fun i hi hlt => by simpa using h1 i hi hlt)
        (fun i hi hge => by simpa using h2 i hi (heq ▸ hge))).symm

theorem bisect_left_sorted (a : List β) (x : β) (hs : a.Sorted (· ≤ ·)) :
    bisect_left a x = a.countP (fun t => decide (t < x)) :=
  bisectLeftAux_eq_countP a x hs a.length 0 a.length (Nat.zero_le _) le_rfl (by omega)
    (fun i _ hlt => absurd hlt (Nat.not_lt_zero i))
    (fun i h hge => absurd h (by omega))

theorem bisectRightAux_eq_countP (a : List β) (x : β) (hs : a.Sorted (· ≤ ·)) :
    ∀ (fuel lo hi : ℕ), lo ≤ hi → hi ≤ a.length → hi - lo ≤ fuel →
    (∀ i (h : i < a.length), i < lo → a.get ⟨i, h⟩ ≤ x) →
    (∀ i (h : i < a.length), hi ≤ i → ¬ a.get ⟨i, h⟩ ≤ x) →
    bisectRightAux a x lo hi fuel = a.countP (fun t => decide (t ≤ x)) := by
  intro fuel
  induction fuel with
  | zero =>
    intro lo hi hlo hhi hfuel h1 h2
    have heq : lo = hi := by omega
    subst heq
    show lo = _
    exact (countP_boundary (fun t => decide (t ≤ x)) a lo (by omega)
      (fun i hi hlt => by simpa using h1 i hi hlt)
      (fun i hi hge => by simpa using h2 i hi hge)).symm
  | succ fuel ih =>
    intro lo hi hlo hhi hfuel h1 h2
    by_cases h : lo < hi
    · rw [show bisectRightAux a x lo hi (fuel + 1)
          = if x < a.getD ((lo + hi) / 2) x then bisectRightAux a x lo ((lo + hi) / 2) fuel
            else bisectRightAux a x ((lo + hi) / 2 + 1) hi fuel by
        rw [bisectRightAux]
        rw [if_pos h]]
      have hmid : (lo + hi) / 2 < a.length := by omega
      have hgd : a.getD ((lo + hi) / 2) x = a.get ⟨(lo + hi) / 2, hmid⟩ := by
        rw [List.get_eq_getElem]
        exact List.getD_eq_getElem a x hmid
      rw [hgd]
      by_cases hcond : x < a.get ⟨(lo + hi) / 2, hmid⟩
      · rw [if_pos hcond]
        refine ih lo ((lo + hi) / 2) (by omega) (by omega) (by omega) h1 ?_
        intro i hilen hige
        have hle : a.get ⟨(lo + hi) / 2, hmid⟩ ≤ a.get ⟨i, hilen⟩ :=
          hs.rel_get_of_le (by simpa using hige)
        exact fun hle2 => absurd (lt_of_lt_of_le hcond hle) (not_lt.mpr hle2)
      · rw [if_neg hcond]
        refine ih ((lo + hi) / 2 + 1) hi (by omega) hhi (by omega) ?_ h2
        intro i hilen hilt
        have hle : a.get ⟨i, hilen⟩ ≤ a.get ⟨(lo + hi) / 2, hmid⟩ :=
          hs.rel_get_of_le (by simpa using Nat.lt_succ_iff.mp hilt)
        exact le_trans hle (not_lt.mp hcond)
    · rw [show bisectRightAux a x lo hi (fuel + 1) = lo by
        rw [bisectRightAux]
        rw [if_neg h]]
      have heq : lo = hi := by omega
      exact (countP_boundary (fun t => decide (t ≤ x)) a lo (by omega)
        (fun i hi hlt => by simpa using h1 i hi hlt)
        (fun i hi hge => by simpa using h2 i hi (heq ▸ hge))).symm

theorem bisect_right_sorted (a : List β) (x : β) (hs : a.Sorted (· ≤ ·)) :
    bisect_right a x = a.countP (fun t => decide (t ≤ x)) :=
  bisectRightAux_eq_countP a x hs a.length 0 a.length (Nat.zero_le _) le_rfl (by omega)
    (fun i _ hlt => absurd hlt (Nat.not_lt_zero i))
    (fun i h hge => absurd h (by omega))

end BisectLemmas

/-- Linear-scan characterization of `insort` on sorted input: insert `x`
in front of the first strictly greater element (i.e. after all elements
`≤ x`, which is where `bisect_right` points). -/
def insortLin {β : Type} [LinearOrder β] (x : β) : List β → List β
  | [] => [x]
  | y :: ys => if x < y then x :: y :: ys else y :: insortLin x ys

section InsortLemmas

variable {β : Type} [LinearOrder β]

theorem insortLin_perm (x : β) (l : List β) : List.Perm (insortLin x l) (x :: l) := by
  induction l with
  | nil => exact List.Perm.refl _
  | cons y ys ih =>
    by_cases hxy : x < y
    · simp [insortLin, hxy]
    · simp only [insortLin, if_neg hxy]
      exact (List.Perm.cons y ih).trans (List.Perm.swap x y ys)

theorem insort_eq_insortLin (l : List β) (x : β) (hs : l.Sorted (· ≤ ·)) :
    insort l x = insortLin x l := by
  induction l with
  | nil =>
    simp [insort, insortLin, bisect_right_sorted _ _ hs, List.insertIdx_zero]
  | cons y ys ih =>
    have hs' : ys.Sorted (· ≤ ·) := hs.of_cons
    have hrel : ∀ z ∈ ys, y ≤ z := List.rel_of_sorted_cons hs
    by_cases hxy : x < y
    · have hcnt : (y :: ys).countP (fun t => decide (t ≤ x)) = 0 := by
        refine List.countP_eq_zero.mpr ?_
        intro z hz
        rcases List.mem_cons.mp hz with hz | hz
        · simpa [hz] using not_le.mpr hxy
        · simpa using not_le.mpr (lt_of_lt_of_le hxy (hrel z hz))
      rw [insort, bisect_right_sorted _ _ hs, hcnt, List.insertIdx_zero]
      simp [insortLin, hxy]
    · have hy : y ≤ x := not_lt.mp hxy
      have hcnt : (y :: ys).countP (fun t => decide (t ≤ x))
          = ys.countP (fun t => decide (t ≤ x)) + 1 := by
        simp [List.countP_cons, hy]
      rw [insort, bisect_right_sorted _ _ hs, hcnt, List.insertIdx_succ_cons]
      have hrec : List.insertIdx (ys.countP (fun t => decide (t ≤ x))) x ys = insort ys x := by
        rw [insort, bisect_right_sorted _ _ hs']
      rw [hrec, ih hs']
      simp [insortLin, hxy]

theorem insortLin_sorted (x : β) (l : List β) (hs : l.Sorted (· ≤ ·)) :
    (insortLin x l).Sorted (· ≤ ·) := by
  induction l with
  | nil => simp [insortLin]
  | cons y ys ih =>
    have hs' : ys.Sorted (· ≤ ·) := hs.of_cons
    have hrel : ∀ z ∈ ys, y ≤ z := List.rel_of_sorted_cons hs
    by_cases hxy : x < y
    · simp only [insortLin, if_pos hxy]
      refine List.sorted_cons.mpr ⟨?_, hs⟩
      intro b hb
      rcases List.mem_cons.mp hb with hb | hb
      · exact hb ▸ le_of_lt hxy
      · exact le_of_lt (lt_of_lt_of_le hxy (hrel b hb))
    · simp only [insortLin, if_neg hxy]
      refine List.sorted_cons.mpr ⟨?_, ih hs'⟩
      intro b hb
      have hb' : b ∈ x :: ys := (insortLin_perm x ys).mem_iff.mp hb
      rcases List.mem_cons.mp hb' with hbx | hby
      · exact hbx ▸ not_lt.mp hxy
      · exact hrel b hby
  
theorem insortLin_all_lt (x : β) (l : List β) (h : ∀ y ∈ l, ¬ x < y) :
    insortLin x l = l ++ [x] := by
  induction l with
  | nil => simp [insortLin]
  | cons y ys ih =>
    have hy : ¬ x < y := h y (List.mem_cons_self y ys)
    simp only [insortLin, if_neg hy]
    rw [ih (fun z hz => h z (List.mem_cons_of_mem y hz))]
    simp

theorem sorted_drop_countP_lt (l : List β) (w : β) (hs : l.Sorted (· ≤ ·)) :
    l.drop (l.countP (fun t => decide (t < w))) = l.filter (fun t => decide (w ≤ t)) := by
  induction l with
  | nil => simp
  | cons y ys ih =>
    have hs' : ys.Sorted (· ≤ ·) := hs.of_cons
    have hrel : ∀ z ∈ ys, y ≤ z := List.rel_of_sorted_cons hs
    by_cases hyw : y < w
    · have hcnt : (y :: ys).countP (fun t => decide (t < w))
          = ys.countP (fun t => decide (t < w)) + 1 := by
        simp [List.countP_cons, hyw]
      rw [hcnt, List.drop_succ_cons, ih hs']
      have hny : ¬ (w ≤ y) := not_le.mpr hyw
      simp [List.filter_cons, hny]
    · have hys : ys.countP (fun t => decide (t < w)) = 0 := by
        refine List.countP_eq_zero.mpr ?_
        intro z hz
        simpa using not_lt.mpr (le_trans (not_lt.mp hyw) (hrel z hz))
      have hcnt : (y :: ys).countP (fun t => decide (t < w)) = 0 := by
        rw [List.countP_cons, hys]
        simp [hyw]
      rw [hcnt, List.drop_zero]
      have hwy : w ≤ y := not_lt.mp hyw
      have hfys : ys.filter (fun t => decide (w ≤ t)) = ys := by
        refine List.filter_eq_self.mpr ?_
        intro z hz
        simpa using le_trans hwy (hrel z hz)
      simp [List.filter_cons, hwy, hfys]

theorem cleanup_list_sorted (l : List β) (w : β) (hs : l.Sorted (· ≤ ·)) :
    l.drop (bisect_left l w) = l.filter (fun t => decide (w ≤ t)) := by
  rw [bisect_left_sorted _ _ hs]
  exact sorted_drop_countP_lt l w hs

end InsortLemmas

section KeyListLemmas

variable {β : Type} [LinearOrder β]

theorem bisectRightAux_le (a : List β) (x : β) :
    ∀ (fuel lo hi : ℕ), lo ≤ hi → bisectRightAux a x lo hi fuel ≤ hi := by
  intro fuel
  induction fuel with
  | zero =>
    intro lo hi hle
    exact hle
  | succ fuel ih =>
    intro lo hi hle
    by_cases h : lo < hi
    · rw [show bisectRightAux a x lo hi (fuel + 1)
          = if x < a.getD ((lo + hi) / 2) x then bisectRightAux a x lo ((lo + hi) / 2) fuel
            else bisectRightAux a x ((lo + hi) / 2 + 1) hi fuel by
        rw [bisectRightAux]
        rw [if_pos h]]
      by_cases hcond : x < a.getD ((lo + hi) / 2) x
      · rw [if_pos hcond]
        exact le_trans (ih lo ((lo + hi) / 2) (by omega)) (by omega)
      · rw [if_neg hcond]
        exact ih ((lo + hi) / 2 + 1) hi (by omega)
    · rw [show bisectRightAux a x lo hi (fuel + 1) = lo by
        rw [bisectRightAux]
        rw [if_neg h]]
      exact hle

theorem bisect_right_le_length (a : List β) (x : β) : bisect_right a x ≤ a.length :=
  bisectRightAux_le a x a.length 0 a.length (Nat.zero_le _)

omit [LinearOrder β] in
theorem insertIdx_perm_cons : ∀ (n : ℕ) (x : β) (xs : List β), n ≤ xs.length →
    List.Perm (List.insertIdx n x xs) (x :: xs)
  | 0, x, xs, _ => by simp [List.insertIdx_zero]
  | n + 1, x, y :: ys, h => by
    rw [List.insertIdx_succ_cons]
    exact (List.Perm.cons y (insertIdx_perm_cons n x ys (Nat.le_of_succ_le_succ h))).trans
      (List.Perm.swap x y ys)

theorem insort_perm (l : List β) (t : β) : List.Perm (insort l t) (t :: l) :=
  insertIdx_perm_cons _ t l (bisect_right_le_length l t)

end KeyListLemmas

/-- Effect of one `SlidingWindow.update(key, t)` call on that key's
stored list, for window duration W: binary-insert t, then drop the
prefix below `t - W` (the body of update followed by _cleanup). -/
def swKeyStep {α : Type} [LinearOrderedAddCommGroup α] (W : α) (l : List α) (t : α) : List α :=
  (insort l t).drop (bisect_left (insort l t) (t - W))

/-- Effect of a whole sequence of updates for one key on that key's
stored list. -/
def swKeyFold {α : Type} [LinearOrderedAddCommGroup α] (W : α) (l0 : List α) (ts : List α) : List α :=
  ts.foldl (swKeyStep W) l0

section KeyFoldLemmas

variable {α : Type} [LinearOrderedAddCommGroup α]

theorem swKeyStep_sorted (W : α) (l : List α) (t : α) (hs : l.Sorted (· ≤ ·)) :
    (swKeyStep W l t).Sorted (· ≤ ·) := by
  have h1 : (insort l t).Sorted (· ≤ ·) := by
    rw [insort_eq_insortLin l t hs]
    exact insortLin_sorted t l hs
  exact h1.sublist (List.drop_sublist _ _)

theorem swKeyFold_sorted (W : α) : ∀ (ts : List α) (l0 : List α), l0.Sorted (· ≤ ·) →
    (swKeyFold W l0 ts).Sorted (· ≤ ·)
  | [], l0, hs => hs
  | t :: ts, l0, hs => swKeyFold_sorted W ts (swKeyStep W l0 t) (swKeyStep_sorted W l0 t hs)

theorem swKeyStep_subperm (W : α) (l : List α) (t : α) :
    List.Subperm (swKeyStep W l t) (t :: l) := by
  have h1 : List.Sublist (swKeyStep W l t) (insort l t) := List.drop_sublist _ _
  exact List.Subperm.trans h1.subperm (insort_perm l t).subperm

theorem swKeyFold_countP_le (W : α) (p : α → Bool) :
    ∀ (ts : List α) (l0 : List α),
      (swKeyFold W l0 ts).countP p ≤ l0.countP p + ts.countP p
  | [], l0 => by simp [swKeyFold]
  | t :: ts, l0 => by
    have ih := swKeyFold_countP_le W p ts (swKeyStep W l0 t)
    have hstep : (swKeyStep W l0 t).countP p ≤ (t :: l0).countP p :=
      (swKeyStep_subperm W l0 t).countP_le p
    have : swKeyFold W l0 (t :: ts) = swKeyFold W (swKeyStep W l0 t) ts := rfl
    rw [this]
    refine le_trans ih ?_
    rw [List.countP_cons] at hstep
    rw [List.countP_cons]
    omega

end KeyFoldLemmas

section SWStateLemmas

variable {K : Type} {α : Type} [DecidableEq K] [LinearOrderedAddCommGroup α]

theorem SW_cleanup_window (sw : SlidingWindow K α) (i : K) (t : α) :
    (sw._cleanup i t).window_size = sw.window_size := rfl

theorem SW_update_window (sw : SlidingWindow K α) (i : K) (t : α) :
    (sw.update i t).window_size = sw.window_size := rfl

theorem SW_cleanup_findVal_self (sw : SlidingWindow K α) (i : K) (t : α) :
    findVal (sw._cleanup i t).timestamps i
      = some (((findVal sw.timestamps i).getD []).drop
          (bisect_left ((findVal sw.timestamps i).getD []) (t - sw.window_size))) := by
  simp [SlidingWindow._cleanup, findVal_setVal_self]

theorem SW_cleanup_findVal_ne (sw : SlidingWindow K α) (i : K) (t : α) (key : K) (h : i ≠ key) :
    findVal (sw._cleanup i t).timestamps key = findVal sw.timestamps key := by
  simp [SlidingWindow._cleanup, findVal_setVal_ne _ _ _ _ h]

theorem SW_update_findVal_self (sw : SlidingWindow K α) (i : K) (t : α) :
    findVal (sw.update i t).timestamps i
      = some (swKeyStep sw.window_size ((findVal sw.timestamps i).getD []) t) := by
  simp [SlidingWindow.update, SlidingWindow._cleanup, swKeyStep, findVal_setVal_self]

theorem SW_update_findVal_ne (sw : SlidingWindow K α) (i : K) (t : α) (key : K) (h : i ≠ key) :
    findVal (sw.update i t).timestamps key = findVal sw.timestamps key := by
  simp [SlidingWindow.update, SlidingWindow._cleanup, findVal_setVal_ne _ _ _ _ h]

theorem applySWUpdates_window (ops : List (K × α)) (sw : SlidingWindow K α) :
    (applySWUpdates sw ops).window_size = sw.window_size := by
  induction ops generalizing sw with
  | nil => rfl
  | cons p rest ih => exact (ih (sw.update p.1 p.2)).trans rfl

theorem applySWUpdates_findVal (ops : List (K × α)) (sw : SlidingWindow K α) (key : K) :
    findVal (applySWUpdates sw ops).timestamps key
      = if findVal sw.timestamps key = none ∧ tsFor key ops = []
        then none
        else some (swKeyFold sw.window_size ((findVal sw.timestamps key).getD []) (tsFor key ops)) := by
  induction ops generalizing sw with
  | nil =>
    cases h : findVal sw.timestamps key <;> simp [tsFor, swKeyFold, h, applySWUpdates]
  | cons p rest ih =>
    obtain ⟨pk, pt⟩ := p
    have hstep : applySWUpdates sw ((pk, pt) :: rest) = applySWUpdates (sw.update pk pt) rest := rfl
    rw [hstep, ih]
    by_cases hk : pk = key
    · subst hk
      rw [SW_update_findVal_self]
      have htf : tsFor pk ((pk, pt) :: rest) = pt :: tsFor pk rest := by
        simp [tsFor, List.filter_cons]
      rw [htf, SW_update_window]
      simp [swKeyFold]
    · rw [SW_update_findVal_ne _ _ _ _ hk]
      have htf : tsFor key ((pk, pt) :: rest) = tsFor key rest := by
        simp [tsFor, List.filter_cons, hk]
      rw [htf, SW_update_window]

/-- Every per-key timestamp list of the state is sorted ascending. -/
def SWAllSorted (sw : SlidingWindow K α) : Prop :=
  ∀ k l, findVal sw.timestamps k = some l → l.Sorted (· ≤ ·)

theorem SWAllSorted_cleanup (sw : SlidingWindow K α) (i : K) (t : α) (hs : SWAllSorted sw) :
    SWAllSorted (sw._cleanup i t) := by
  intro k l hfind
  by_cases hk : i = k
  · subst hk
    rw [SW_cleanup_findVal_self] at hfind
    have hcur : ((findVal sw.timestamps i).getD []).Sorted (· ≤ ·) := by
      cases h : findVal sw.timestamps i with
      | none => simp
      | some c => simpa using hs i c h
    have hl : l = ((findVal sw.timestamps i).getD []).drop
        (bisect_left ((findVal sw.timestamps i).getD []) (t - sw.window_size)) :=
      (Option.some_injective _ hfind).symm
    rw [hl]
    exact hcur.sublist (List.drop_sublist _ _)
  · rw [SW_cleanup_findVal_ne _ _ _ _ hk] at hfind
    exact hs k l hfind

theorem SWAllSorted_update (sw : SlidingWindow K α) (i : K) (t : α) (hs : SWAllSorted sw) :
    SWAllSorted (sw.update i t) := by
  intro k l hfind
  by_cases hk : i = k
  · subst hk
    rw [SW_update_findVal_self] at hfind
    have hcur : ((findVal sw.timestamps i).getD []).Sorted (· ≤ ·) := by
      cases h : findVal sw.timestamps i with
      | none => simp
      | some c => simpa using hs i c h
    have hl : l = swKeyStep sw.window_size ((findVal sw.timestamps i).getD []) t :=
      (Option.some_injective _ hfind).symm
    rw [hl]
    exact swKeyStep_sorted _ _ _ hcur
  · rw [SW_update_findVal_ne _ _ _ _ hk] at hfind
    exact hs k l hfind

theorem SWAllSorted_cleanup_fold (t : α) :
    ∀ (ks : List K) (s : SlidingWindow K α), SWAllSorted s →
      SWAllSorted (ks.foldl (fun s2 i => s2._cleanup i t) s)
  | [], s, hs => hs
  | i :: ks, s, hs =>
    SWAllSorted_cleanup_fold t ks (s._cleanup i t) (SWAllSorted_cleanup s i t hs)

theorem SW_tf_fold_fst (t : α) :
    ∀ (ks : List K) (s : SlidingWindow K α) (n : ℕ),
      ((ks.foldl (fun acc item_id =>
          let sw' := acc.1._cleanup item_id t
          (sw', acc.2 + ((findVal sw'.timestamps item_id).getD []).length)) (s, n)).1)
        = ks.foldl (fun s2 i => s2._cleanup i t) s
  | [], _, _ => rfl
  | i :: ks, s, n => by
    simpa using SW_tf_fold_fst t ks (s._cleanup i t) _

theorem SW_topk_fold_fst (t : α) :
    ∀ (ks : List K) (s : SlidingWindow K α) (acc2 : List (K × ℕ)),
      ((ks.foldl (fun acc item_id =>
          let sw' := acc.1._cleanup item_id t
          (sw', acc.2 ++ [(item_id, ((findVal sw'.timestamps item_id).getD []).length)])) (s, acc2)).1)
        = ks.foldl (fun s2 i => s2._cleanup i t) s
  | [], _, _ => rfl
  | i :: ks, s, acc2 => by
    simpa using SW_topk_fold_fst t ks (s._cleanup i t) _

theorem SWAllSorted_applySWOp (sw : SlidingWindow K α) (op : SWOp K α) (hs : SWAllSorted sw) :
    SWAllSorted (applySWOp sw op) := by
  cases op with
  | update i t => exact SWAllSorted_update sw i t hs
  | query i t =>
    show SWAllSorted (sw.query i t).1
    rw [SlidingWindow.query]
    cases h : findVal sw.timestamps i with
    | none => exact hs
    | some l => exact SWAllSorted_cleanup sw i t hs
  | total_frequency t =>
    show SWAllSorted (sw.total_frequency t).1
    rw [SlidingWindow.total_frequency, SW_tf_fold_fst]
    exact SWAllSorted_cleanup_fold t _ sw hs
  | top_k k t =>
    show SWAllSorted (sw.top_k k t).1
    rw [SlidingWindow.top_k]
    simp only []
    rw [SW_topk_fold_fst]
    exact SWAllSorted_cleanup_fold t _ sw hs

/-- C10: every per-key timestamp list of a SlidingWindow instance is
sorted in non-decreasing order after every sequence of update, query,
total_frequency and top_k calls, including update sequences whose
timestamps arrive out of order (binary insertion keeps a sorted list
sorted, and eviction only drops a prefix). -/
theorem SlidingWindow.per_key_lists_sorted {K : Type} {α : Type} [DecidableEq K]
    [LinearOrderedAddCommGroup α] (W : α) (ops : List (SWOp K α)) (k : K) (l : List α)
    (hfind : findVal (applySWOps (SlidingWindow.init W) ops).timestamps k = some l) :
    l.Sorted (· ≤ ·) := by
  suffices h : ∀ (ops : List (SWOp K α)) (sw : SlidingWindow K α), SWAllSorted sw →
      SWAllSorted (applySWOps sw ops) by
    refine h ops (SlidingWindow.init W) ?_ k l hfind
    intro k2 l2 hf2
    simp [SlidingWindow.init, findVal] at hf2
  intro ops
  induction ops with
  | nil => exact fun sw hs => hs
  | cons op rest ih =>
    intro sw hs
    exact ih (applySWOp sw op) (SWAllSorted_applySWOp sw op hs)

/-- Witness for C10: after the out-of-order updates (1, t=3) then
(1, t=2) with window 10, key 1 stores the sorted list [2, 3]. -/
theorem SlidingWindow.per_key_lists_sorted_witness :
    ([(2 : ℤ), 3]).Sorted (· ≤ ·) :=
  SlidingWindow.per_key_lists_sorted (K := ℕ) (10 : ℤ)
    [SWOp.update 1 3, SWOp.update 1 2] 1 [2, 3] (by decide)

section SWQueryLemmas

variable {K : Type} {α : Type} [DecidableEq K] [LinearOrderedAddCommGroup α]

omit [LinearOrderedAddCommGroup α] in
theorem mem_tsFor {s : α} {key : K} {ops : List (K × α)} (h : s ∈ tsFor key ops) :
    ∃ p, p ∈ ops ∧ p.1 = key ∧ p.2 = s := by
  rcases List.mem_map.mp h with ⟨p, hp, rfl⟩
  rcases List.mem_filter.mp hp with ⟨hmem, hkey⟩
  exact ⟨p, hmem, by simpa using hkey, rfl⟩

theorem filter_threshold (l : List α) (u v : α) (huv : u ≤ v) :
    (l.filter (fun s => decide (u ≤ s))).filter (fun s => decide (v ≤ s))
      = l.filter (fun s => decide (v ≤ s)) := by
  rw [List.filter_filter]
  refine List.filter_congr ?_
  intro s _
  by_cases hv : v ≤ s
  · simp [hv, le_trans huv hv]
  · simp [hv]

theorem countP_filter_threshold (l : List α) (u v : α) (huv : u ≤ v) :
    (l.filter (fun s => decide (u ≤ s))).countP (fun s => decide (v ≤ s))
      = l.countP (fun s => decide (v ≤ s)) := by
  rw [List.countP_eq_length_filter, List.countP_eq_length_filter, filter_threshold l u v huv]

theorem swKeyFold_strictAsc (W : α) :
    ∀ (ts : List α) (m : α), ts.getLast? = some m → List.Pairwise (· < ·) ts →
      swKeyFold W [] ts = ts.filter (fun s => decide (m - W ≤ s)) := by
  intro ts
  induction ts using List.reverseRecOn with
  | nil =>
    intro m hm
    simp at hm
  | append_singleton l a ih =>
    intro m hm hP
    have hma : a = m := by
      rw [List.getLast?_concat] at hm
      exact Option.some_injective _ hm
    subst hma
    rcases List.pairwise_append.mp hP with ⟨hPl, _, hlt⟩
    have hfold : swKeyFold W [] (l ++ [a]) = swKeyStep W (swKeyFold W [] l) a := by
      rw [swKeyFold, List.foldl_append]
      rfl
    cases l with
    | nil =>
      rw [hfold]
      have h1 : swKeyStep W ([] : List α) a = ([a] : List α).drop (bisect_left [a] (a - W)) := rfl
      rw [show swKeyFold W [] ([] : List α) = [] from rfl, h1,
        cleanup_list_sorted [a] (a - W) (by simp)]
      simp
    | cons b l' =>
      have hlne : (b :: l') ≠ [] := by simp
      have hm' := List.getLast?_eq_getLast (b :: l') hlne
      have hfoldl := ih ((b :: l').getLast hlne) hm' hPl
      have hm'a : (b :: l').getLast hlne < a :=
        hlt _ (List.getLast_mem hlne) a (by simp)
      have hsort_l : (b :: l').Sorted (· ≤ ·) := hPl.imp le_of_lt
      have hLsort : ((b :: l').filter
          (fun s => decide ((b :: l').getLast hlne - W ≤ s))).Sorted (· ≤ ·) :=
        hsort_l.filter _
      have hallL : ∀ y ∈ (b :: l').filter
          (fun s => decide ((b :: l').getLast hlne - W ≤ s)), ¬ a < y := by
        intro y hy
        have hyl : y ∈ b :: l' := List.mem_of_mem_filter hy
        exact not_lt.mpr (le_of_lt (hlt y hyl a (by simp)))
      have hallLle : ∀ y ∈ (b :: l').filter
          (fun s => decide ((b :: l').getLast hlne - W ≤ s)), y ≤ a := by
        intro y hy
        exact le_of_lt (hlt y (List.mem_of_mem_filter hy) a (by simp))
      rw [hfold, hfoldl]
      rw [swKeyStep, insort_eq_insortLin _ _ hLsort, insortLin_all_lt _ _ hallL]
      have hsort_La : (((b :: l').filter
          (fun s => decide ((b :: l').getLast hlne - W ≤ s))) ++ [a]).Sorted (· ≤ ·) := by
        refine List.pairwise_append.mpr ⟨hLsort, by simp, ?_⟩
        intro y hy z hz
        rw [List.mem_singleton.mp hz]
        exact hallLle y hy
      rw [cleanup_list_sorted _ _ hsort_La, List.filter_append, List.filter_append]
      congr 1
      exact filter_threshold (b :: l') _ _
        (sub_le_sub_right (le_of_lt hm'a) W)

end SWQueryLemmas

section SWQueryCount

variable {K : Type} {α : Type} [DecidableEq K] [LinearOrderedAddCommGroup α]

theorem SW_query_none (sw : SlidingWindow K α) (key : K) (t : α)
    (h : findVal sw.timestamps key = none) : sw.query key t = (sw, 0) := by
  rw [SlidingWindow.query, h]

theorem SW_query_count (sw : SlidingWindow K α) (key : K) (t : α) (L : List α)
    (h : findVal sw.timestamps key = some L) :
    (sw.query key t).2 = (L.drop (bisect_left L (t - sw.window_size))).length := by
  rw [SlidingWindow.query, h]
  simp [SW_cleanup_findVal_self, h]

theorem swQuery_after_updates (W : α) (ops : List (K × α)) (key : K) (t : α)
    (hpast : ∀ p ∈ ops, p.1 = key → p.2 ≤ t) :
    (((applySWUpdates (SlidingWindow.init W) ops).query key t).2
        ≤ (tsFor key ops).countP (fun s => decide (t - W ≤ s)))
    ∧ (List.Pairwise (· < ·) (tsFor key ops) →
        ((applySWUpdates (SlidingWindow.init W) ops).query key t).2
          = (tsFor key ops).countP (fun s => decide (t - W ≤ s))) := by
  have hfind := applySWUpdates_findVal ops (SlidingWindow.init W) key
  have hinit : findVal (SlidingWindow.init (K := K) (α := α) W).timestamps key = none := rfl
  rw [hinit] at hfind
  have hwin : (applySWUpdates (SlidingWindow.init (K := K) (α := α) W) ops).window_size = W :=
    applySWUpdates_window ops (SlidingWindow.init W)
  by_cases hts : tsFor key ops = []
  · have hnone : findVal (applySWUpdates (SlidingWindow.init (K := K) (α := α) W) ops).timestamps key
        = none := by
      rw [hfind]
      simp [hts]
    constructor
    · rw [SW_query_none _ _ _ hnone]
      simp
    · intro _
      rw [SW_query_none _ _ _ hnone, hts]
      simp
  · have hsome : findVal (applySWUpdates (SlidingWindow.init (K := K) (α := α) W) ops).timestamps key
        = some (swKeyFold W [] (tsFor key ops)) := by
      rw [hfind]
      simp [hts, SlidingWindow.init]
    have hLsort : (swKeyFold W [] (tsFor key ops)).Sorted (· ≤ ·) :=
      swKeyFold_sorted W _ [] (by simp)
    have hcnt : ((applySWUpdates (SlidingWindow.init (K := K) (α := α) W) ops).query key t).2
        = (swKeyFold W [] (tsFor key ops)).countP (fun s => decide (t - W ≤ s)) := by
      rw [SW_query_count _ _ _ _ hsome, hwin, cleanup_list_sorted _ _ hLsort,
        List.countP_eq_length_filter]
    constructor
    · rw [hcnt]
      have hb := swKeyFold_countP_le W (fun s => decide (t - W ≤ s)) (tsFor key ops) []
      simpa using hb
    · intro hasc
      rw [hcnt]
      obtain ⟨m, hm⟩ : ∃ m, (tsFor key ops).getLast? = some m := by
        cases hg : (tsFor key ops).getLast? with
        | none => exact absurd (List.getLast?_eq_none_iff.mp hg) hts
        | some m => exact ⟨m, rfl⟩
      rw [swKeyFold_strictAsc W _ m hm hasc]
      have hmt : m ≤ t := by
        rcases mem_tsFor (List.mem_of_mem_getLast? hm) with ⟨p, hp, hk, hv⟩
        exact hv ▸ hpast p hp hk
      exact countP_filter_threshold _ _ _ (sub_le_sub_right hmt W)

omit [LinearOrderedAddCommGroup α] in
theorem filter_key_len (ops : List (K × α)) (key : K) (q : α → Bool) :
    (ops.filter (fun p => decide (p.1 = key) && q p.2)).length = (tsFor key ops).countP q := by
  rw [← List.countP_eq_length_filter, tsFor, List.countP_map, List.countP_filter]
  refine List.countP_congr ?_
  intro p _
  by_cases hk : p.1 = key <;> by_cases hq : q p.2 <;> simp [hk, hq, Function.comp]

end SWQueryCount

/-- C3 counterexample: with window_size 30, a single update(key 1,
t=100) followed by query(1, 0) returns 1, but no update for key 1 has a
timestamp in the window [0 - 30, 0]; the entry survives because eviction
only removes timestamps below t - window_size, never future ones, so the
claimed bound fails at a query time earlier than a stored timestamp. -/
theorem SlidingWindow.query_le_window_count_cex :
    ¬ ((((applySWUpdates (SlidingWindow.init (30:ℤ)) [((1:ℕ), (100:ℤ))]).query 1 0).2
        ≤ ([((1:ℕ), (100:ℤ))].filter
            (fun p => decide (p.1 = 1 ∧ (0:ℤ) - 30 ≤ p.2 ∧ p.2 ≤ 0))).length)) := by
  decide

/-- C3 (amended): for every sequence of SlidingWindow.update calls and
every query time t that is at least every timestamp issued for the key,
query(key, t) is at most the number of updates issued for that key with
timestamp in [t - window_size, t], with equality whenever the key's
update timestamps were issued in strictly ascending order. -/
theorem SlidingWindow.query_le_window_count {K : Type} {α : Type} [DecidableEq K]
    [LinearOrderedAddCommGroup α] (W : α) (ops : List (K × α)) (key : K) (t : α)
    (hpast : ∀ p ∈ ops, p.1 = key → p.2 ≤ t) :
    (((applySWUpdates (SlidingWindow.init W) ops).query key t).2
        ≤ (ops.filter (fun p => decide (p.1 = key ∧ t - W ≤ p.2 ∧ p.2 ≤ t))).length)
    ∧ (List.Pairwise (· < ·) (tsFor key ops) →
        ((applySWUpdates (SlidingWindow.init W) ops).query key t).2
          = (ops.filter (fun p => decide (p.1 = key ∧ t - W ≤ p.2 ∧ p.2 ≤ t))).length) := by
  have hfun : (fun p : K × α => decide (p.1 = key ∧ t - W ≤ p.2 ∧ p.2 ≤ t))
      = fun p : K × α => decide (p.1 = key) && (fun s => decide (t - W ≤ s ∧ s ≤ t)) p.2 := by
    funext p
    by_cases h1 : p.1 = key <;> by_cases h2 : t - W ≤ p.2 <;> by_cases h3 : p.2 ≤ t <;>
      simp [h1, h2, h3]
  have hcount : (ops.filter (fun p => decide (p.1 = key ∧ t - W ≤ p.2 ∧ p.2 ≤ t))).length
      = (tsFor key ops).countP (fun s => decide (t - W ≤ s)) := by
    rw [hfun, filter_key_len ops key (fun s => decide (t - W ≤ s ∧ s ≤ t))]
    refine List.countP_congr ?_
    intro s hs
    have hle : s ≤ t := by
      rcases mem_tsFor hs with ⟨p, hp, hk, hv⟩
      exact hv ▸ hpast p hp hk
    by_cases h2 : t - W ≤ s <;> simp [h2, hle]
  rw [hcount]
  exact swQuery_after_updates W ops key t hpast

/-- Witness for C3 (amended) at window 30, updates (1, 0) then (1, 1),
query time 1. -/
theorem SlidingWindow.query_le_window_count_witness :
    (∀ p ∈ [((1:ℕ), (0:ℤ)), (1, 1)], p.1 = 1 → p.2 ≤ 1)
    ∧ (((applySWUpdates (SlidingWindow.init (30:ℤ)) [((1:ℕ), (0:ℤ)), (1, 1)]).query 1 1).2
        ≤ ([((1:ℕ), (0:ℤ)), (1, 1)].filter
            (fun p => decide (p.1 = 1 ∧ (1:ℤ) - 30 ≤ p.2 ∧ p.2 ≤ 1))).length) :=
  ⟨by decide,
    (SlidingWindow.query_le_window_count (30:ℤ) [((1:ℕ), (0:ℤ)), (1, 1)] 1 1 (by decide)).1⟩

/-- The C4 scenario update sequence: one update for key 1 at each
integer timestamp 0..t. -/
def swScenarioOps (t : ℕ) : List (ℕ × ℤ) :=
  (List.range (t + 1)).map (fun (i : ℕ) => (1, (i : ℤ)))

/-- State of a SlidingWindow with window_size 30 after the scenario
updates 0..t for key 1. -/
def swScenario (t : ℕ) : SlidingWindow ℕ ℤ :=
  applySWUpdates (SlidingWindow.init 30) (swScenarioOps t)

theorem countP_map_general {γ : Type} {δ : Type} (f : γ → δ) (p : δ → Bool) :
    ∀ l : List γ, (l.map f).countP p = l.countP (fun x => p (f x))
  | [] => rfl
  | a :: tl => by simp [List.countP_cons, countP_map_general f p tl]

theorem range_countP_ge (m : ℕ) : ∀ (n : ℕ),
    (List.range n).countP (fun i => decide (m ≤ i)) = n - m
  | 0 => by simp
  | n + 1 => by
    rw [List.range_succ, List.countP_append, range_countP_ge m n]
    by_cases h : m ≤ n
    · simp [List.countP_cons, h]
      omega
    · simp [List.countP_cons, h]
      omega

theorem swScenario_tsFor (t : ℕ) :
    tsFor 1 (swScenarioOps t) = (List.range (t + 1)).map (fun (i : ℕ) => (i : ℤ)) := by
  rw [tsFor, swScenarioOps, List.filter_map]
  simp [Function.comp_def]

theorem swScenario_query (t : ℕ) :
    ((swScenario t).query 1 ((t : ℕ) : ℤ)).2 = min 30 t + 1 := by
  have hpast : ∀ p ∈ swScenarioOps t, p.1 = 1 → p.2 ≤ ((t : ℕ) : ℤ) := by
    intro p hp _
    rw [swScenarioOps] at hp
    rcases List.mem_map.mp hp with ⟨i, hi, rfl⟩
    have hit : i < t + 1 := List.mem_range.mp hi
    show (i : ℤ) ≤ (t : ℤ)
    omega
  have hasc : List.Pairwise (· < ·) (tsFor 1 (swScenarioOps t)) := by
    rw [swScenario_tsFor]
    refine List.Pairwise.map _ ?_ (List.pairwise_lt_range (t + 1))
    intro a b hab
    show (a : ℤ) < (b : ℤ)
    omega
  have heq := (swQuery_after_updates (30:ℤ) (swScenarioOps t) 1 ((t : ℕ) : ℤ) hpast).2 hasc
  rw [show swScenario t = applySWUpdates (SlidingWindow.init 30) (swScenarioOps t) from rfl, heq]
  have h2 : (tsFor 1 (swScenarioOps t)).countP (fun s => decide (((t : ℕ) : ℤ) - 30 ≤ s))
      = (List.range (t + 1)).countP (fun i => decide (t - 30 ≤ i)) := by
    rw [swScenario_tsFor, countP_map_general]
    refine List.countP_congr ?_
    intro i _
    simp only [decide_eq_true_eq]
    constructor
    · intro h
      omega
    · intro h
      omega
  rw [h2, range_countP_ge]
  omega

/-- C4 counterexample: at in-stream time t = 30, the scenario query
returns 31, not min(30, 30 + 1) = 30: cleanup keeps every timestamp
greater than or equal to t - window_size, so the window [0, 30] holds
the 31 integer timestamps 0..30. -/
theorem SlidingWindow.scenario_min30_cex :
    ((swScenario 30).query 1 ((30 : ℕ) : ℤ)).2 ≠ min 30 (30 + 1) := by
  rw [swScenario_query 30]
  decide

/-- C4 (amended): in the scenario of one update at each integer
timestamp 0..999 for one key and window_size = 30, the query for that
key at in-stream time t (right after the update at t) returns exactly
min(30, t) + 1, i.e. min(31, t + 1): t + 1 while the window is filling
and 31 from t = 30 on, because the retained window [t - 30, t] is
inclusive at both endpoints. -/
theorem SlidingWindow.scenario_count (t : ℕ) (ht : t ≤ 999) :
    ((swScenario t).query 1 ((t : ℕ) : ℤ)).2 = min 30 t + 1 :=
  swScenario_query t

/-- Witness for C4 (amended) at t = 45. -/
theorem SlidingWindow.scenario_count_witness :
    45 ≤ 999 ∧ ((swScenario 45).query 1 ((45 : ℕ) : ℤ)).2 = min 30 45 + 1 :=
  ⟨by decide, SlidingWindow.scenario_count 45 (by decide)⟩

/-- Keys receiving at least one update in a ForwardDecay call sequence. -/
def fdUpdatedKeys {K : Type} (ops : List (FDOp K)) : List K :=
  ops.filterMap (fun op => match op with
    | .update i _ => some i
    | _ => none)

/-- Keys receiving at least one update in a BackwardDecay call sequence. -/
def bdUpdatedKeys {K : Type} (ops : List (BDOp K)) : List K :=
  ops.filterMap (fun op => match op with
    | .update i _ => some i
    | _ => none)

/-- Keys receiving at least one update in a SlidingWindow call sequence. -/
def swUpdatedKeys {K : Type} {α : Type} (ops : List (SWOp K α)) : List K :=
  ops.filterMap (fun op => match op with
    | .update i _ => some i
    | _ => none)

theorem findVal_none_not_mem {K : Type} {γ : Type} [DecidableEq K] (l : List (K × γ)) (key : K)
    (h : findVal l key = none) : key ∉ l.map Prod.fst := by
  induction l with
  | nil => simp
  | cons p rest ih =>
    rw [findVal] at h
    by_cases hp : p.1 = key
    · simp [hp] at h
    · simp only [hp, if_false] at h
      simp only [List.map_cons, List.mem_cons]
      push_neg
      exact ⟨fun e => hp e.symm, ih h⟩

theorem applyFDOps_findVal_none {K : Type} [DecidableEq K] (ops : List (FDOp K)) :
    ∀ (fd : ForwardDecay K) (key : K), key ∉ fdUpdatedKeys ops →
      findVal fd.decayed_counts key = none →
      findVal (applyFDOps fd ops).decayed_counts key = none := by
  induction ops with
  | nil => exact fun fd key _ h => h
  | cons op rest ih =>
    intro fd key hkey h
    have hstep : applyFDOps fd (op :: rest) = applyFDOps (applyFDOp fd op) rest := rfl
    rw [hstep]
    cases op with
    | update i t =>
      have hik : i ≠ key := by
        intro e
        exact hkey (by simp [fdUpdatedKeys, List.filterMap_cons, e])
      refine ih _ key ?_ ?_
      · intro hmem
        exact hkey (by simpa [fdUpdatedKeys, List.filterMap_cons] using Or.inr hmem)
      · show findVal (fd.update i t).decayed_counts key = none
        rw [show (fd.update i t).decayed_counts
            = setVal fd.decayed_counts i ((findVal fd.decayed_counts i).getD 0
                + Real.exp (fd.lambda_ * (t - match fd.t0 with | none => t | some x => x)))
          from rfl]
        rw [findVal_setVal_ne _ _ _ _ hik]
        exact h
    | query i t =>
      exact ih _ key (fun hmem => hkey (by simpa [fdUpdatedKeys, List.filterMap_cons] using hmem)) h
    | total_frequency t =>
      exact ih _ key (fun hmem => hkey (by simpa [fdUpdatedKeys, List.filterMap_cons] using hmem)) h
    | top_k n t =>
      exact ih _ key (fun hmem => hkey (by simpa [fdUpdatedKeys, List.filterMap_cons] using hmem)) h

theorem applyBDOps_findVal_none {K : Type} [DecidableEq K] (ops : List (BDOp K)) :
    ∀ (bd : BackwardDecay K) (key : K), key ∉ bdUpdatedKeys ops →
      findVal bd.timestamps key = none →
      findVal (applyBDOps bd ops).timestamps key = none := by
  induction ops with
  | nil => exact fun bd key _ h => h
  | cons op rest ih =>
    intro bd key hkey h
    have hstep : applyBDOps bd (op :: rest) = applyBDOps (applyBDOp bd op) rest := rfl
    rw [hstep]
    cases op with
    | update i t =>
      have hik : i ≠ key := by
        intro e
        exact hkey (by simp [bdUpdatedKeys, List.filterMap_cons, e])
      refine ih _ key ?_ ?_
      · intro hmem
        exact hkey (by simpa [bdUpdatedKeys, List.filterMap_cons] using Or.inr hmem)
      · show findVal (bd.update i t).timestamps key = none
        rw [show (bd.update i t).timestamps
            = setVal bd.timestamps i (((findVal bd.timestamps i).getD []) ++ [t]) from rfl]
        rw [findVal_setVal_ne _ _ _ _ hik]
        exact h
    | query i t =>
      exact ih _ key (fun hmem => hkey (by simpa [bdUpdatedKeys, List.filterMap_cons] using hmem)) h
    | total_frequency t =>
      exact ih _ key (fun hmem => hkey (by simpa [bdUpdatedKeys, List.filterMap_cons] using hmem)) h
    | top_k n t =>
      exact ih _ key (fun hmem => hkey (by simpa [bdUpdatedKeys, List.filterMap_cons] using hmem)) h

theorem SW_cleanup_fold_findVal_ne {K : Type} {α : Type} [DecidableEq K]
    [LinearOrderedAddCommGroup α] (t : α) :
    ∀ (ks : List K) (s : SlidingWindow K α) (key : K), key ∉ ks →
      findVal (ks.foldl (fun s2 i => s2._cleanup i t) s).timestamps key
        = findVal s.timestamps key
  | [], _, _, _ => rfl
  | i :: ks, s, key, h => by
    have hik : i ≠ key := fun e => h (e ▸ List.mem_cons_self i ks)
    have htail : key ∉ ks := fun hm => h (List.mem_cons_of_mem i hm)
    rw [show (i :: ks).foldl (fun s2 j => s2._cleanup j t) s
        = ks.foldl (fun s2 j => s2._cleanup j t) (s._cleanup i t) from rfl]
    rw [SW_cleanup_fold_findVal_ne t ks (s._cleanup i t) key htail,
      SW_cleanup_findVal_ne s i t key hik]

theorem applySWOps_findVal_none {K : Type} {α : Type} [DecidableEq K]
    [LinearOrderedAddCommGroup α] (ops : List (SWOp K α)) :
    ∀ (sw : SlidingWindow K α) (key : K), key ∉ swUpdatedKeys ops →
      findVal sw.timestamps key = none →
      findVal (applySWOps sw ops).timestamps key = none := by
  induction ops with
  | nil => exact fun sw key _ h => h
  | cons op rest ih =>
    intro sw key hkey h
    have hstep : applySWOps sw (op :: rest) = applySWOps (applySWOp sw op) rest := rfl
    rw [hstep]
    cases op with
    | update i t =>
      have htail : key ∉ swUpdatedKeys rest := fun hmem =>
        hkey (by simpa [swUpdatedKeys, List.filterMap_cons] using Or.inr hmem)
      have hik : i ≠ key := by
        intro e
        exact hkey (by simp [swUpdatedKeys, List.filterMap_cons, e])
      refine ih _ key htail ?_
      show findVal (sw.update i t).timestamps key = none
      rw [SW_update_findVal_ne _ _ _ _ hik]
      exact h
    | query i t =>
      have htail : key ∉ swUpdatedKeys rest := fun hmem =>
        hkey (by simpa [swUpdatedKeys, List.filterMap_cons] using hmem)
      refine ih _ key htail ?_
      show findVal (sw.query i t).1.timestamps key = none
      cases hf : findVal sw.timestamps i with
      | none =>
        rw [SW_query_none _ _ _ hf]
        exact h
      | some l =>
        have hik : i ≠ key := by
          intro e
          rw [e, h] at hf
          cases hf
        rw [SlidingWindow.query, hf]
        show findVal (sw._cleanup i t).timestamps key = none
        rw [SW_cleanup_findVal_ne _ _ _ _ hik]
        exact h
    | total_frequency t =>
      have htail : key ∉ swUpdatedKeys rest := fun hmem =>
        hkey (by simpa [swUpdatedKeys, List.filterMap_cons] using hmem)
      refine ih _ key htail ?_
      show findVal (sw.total_frequency t).1.timestamps key = none
      rw [SlidingWindow.total_frequency, SW_tf_fold_fst,
        SW_cleanup_fold_findVal_ne t _ sw key (findVal_none_not_mem _ _ h)]
      exact h
    | top_k n t =>
      have htail : key ∉ swUpdatedKeys rest := fun hmem =>
        hkey (by simpa [swUpdatedKeys, List.filterMap_cons] using hmem)
      refine ih _ key htail ?_
      show findVal (sw.top_k n t).1.timestamps key = none
      rw [SlidingWindow.top_k]
      simp only []
      rw [SW_topk_fold_fst,
        SW_cleanup_fold_findVal_ne t _ sw key (findVal_none_not_mem _ _ h)]
      exact h

/-- C9: on each of the three estimators, querying a key that has never
been updated returns zero rather than raising, for every reachable state
(any call sequence from a fresh instance) and every query time; for
ForwardDecay this includes the states before any landmark is set, since
the unseen-key check precedes the landmark check. -/
theorem unseen_key_query_zero {K : Type} [DecidableEq K] {α : Type}
    [LinearOrderedAddCommGroup α] (lamF lamB : ℝ) (W : α)
    (opsF : List (FDOp K)) (opsB : List (BDOp K)) (opsS : List (SWOp K α))
    (key : K) (tF tB : ℝ) (tS : α)
    (hF : key ∉ fdUpdatedKeys opsF) (hB : key ∉ bdUpdatedKeys opsB)
    (hS : key ∉ swUpdatedKeys opsS) :
    (applyFDOps (ForwardDecay.init lamF none) opsF).query key tF = 0
    ∧ (applyBDOps (BackwardDecay.init lamB) opsB).query key tB = 0
    ∧ ((applySWOps (SlidingWindow.init W) opsS).query key tS).2 = 0 := by
  refine ⟨?_, ?_, ?_⟩
  · exact ForwardDecay.query_eq_none _ _ _ (applyFDOps_findVal_none opsF _ key hF rfl)
  · have h := applyBDOps_findVal_none opsB (BackwardDecay.init lamB) key hB rfl
    simp [BackwardDecay.query, h]
  · have h := applySWOps_findVal_none opsS (SlidingWindow.init W) key hS rfl
    rw [SW_query_none _ _ _ h]

/-- Witness for C9: key 1 is never updated in the three one-update call
sequences, and all three queries return 0. -/
theorem unseen_key_query_zero_witness :
    ((1:ℕ) ∉ fdUpdatedKeys [FDOp.update (0:ℕ) (1:ℝ)])
    ∧ (applyFDOps (ForwardDecay.init 1 none) [FDOp.update (0:ℕ) (1:ℝ)]).query 1 2 = 0
    ∧ (applyBDOps (BackwardDecay.init 1) [BDOp.update (0:ℕ) (1:ℝ)]).query 1 2 = 0
    ∧ ((applySWOps (SlidingWindow.init (30:ℤ)) [SWOp.update (0:ℕ) (5:ℤ)]).query 1 7).2 = 0 := by
  have T := unseen_key_query_zero (K := ℕ) (α := ℤ) 1 1 30
    [FDOp.update (0:ℕ) (1:ℝ)] [BDOp.update (0:ℕ) (1:ℝ)] [SWOp.update (0:ℕ) (5:ℤ)]
    1 2 2 7 (by decide) (by decide) (by decide)
  exact ⟨by decide, T.1, T.2.1, T.2.2⟩
